import Mathlib

/-!
Verification of the clar test-suite generator (a Python build-time source
generator, file _clar.py) against its natural-language specification.

The development shallowly embeds the discovery-and-extraction pipeline:

- the text normalizer (SKIP_COMMENTS_REGEX together with _skip_comments),
  modelled as a left-to-right scanner with exactly the semantics of the
  regex alternation used by re.sub: at each position the alternatives
  line comment, block comment, character literal, string literal are tried
  in order; spans starting with a slash are replaced by the empty string,
  literal spans are kept verbatim, and on no match one character is copied;
- the declaration scanners (TEST_FUNC_REGEX and EVENT_CB_REGEX findall),
  modelled as line-anchored parsers over the character list.  The suite
  name is interpolated into TEST_FUNC_REGEX without escaping; the model
  interprets an interpolated dot as the any-character metacharacter and
  every other interpolated character literally, which matches the Python
  semantics for suite names made of word characters, underscores and dots
  (other regex metacharacters are outside the model's scope);
- the suite model builder (_process_declarations, _process_events,
  _process_test_file and the ClarTestBuilder state) and the renderer
  (_render_cb, _render_callbacks, _render_suite, _render_event_overrides,
  _render_main, _render_header).  The bundled template assets (clar.c and
  clar.h, which are not part of the scanned source) are abstracted: the
  main output is modelled as the record of the five substitution values
  that _render_main feeds into the template, and the header output as the
  joined extern declaration block.

Python strings are compared lexicographically by code point; listCharLE
below is exactly that order on character lists.
-/

/-- Lexicographic comparison of character lists by code point, the order
Python uses for string comparison and hence for sorted() and list.sort(). -/
def listCharLE : List Char → List Char → Bool
  | [], _ => true
  | _ :: _, [] => false
  | a :: as, b :: bs =>
    if a = b then listCharLE as bs
    else decide (a.toNat < b.toNat)

/-- Python string comparison, as a Bool on Lean strings. -/
def strLE (a b : String) : Bool := listCharLE a.data b.data

/-- The comparison as a relation, for use with List.insertionSort. -/
def strLEP (a b : String) : Prop := strLE a b = true

instance : DecidableRel strLEP := fun a b =>
  inferInstanceAs (Decidable (strLE a b = true))

theorem charToNat_inj {a b : Char} (h : a.toNat = b.toNat) : a = b := by
  have := congrArg Char.ofNat h
  rwa [Char.ofNat_toNat, Char.ofNat_toNat] at this

theorem listCharLE_total : ∀ as bs : List Char,
    listCharLE as bs = true ∨ listCharLE bs as = true := by
  intro as
  induction as with
  | nil => intro bs; left; rfl
  | cons a as ih =>
    intro bs
    cases bs with
    | nil => right; rfl
    | cons b bs =>
      by_cases hab : a = b
      · subst hab
        simp only [listCharLE, if_pos rfl]
        exact ih bs
      · have hba : ¬ b = a := fun h => hab h.symm
        simp only [listCharLE, if_neg hab, if_neg hba]
        rcases Nat.lt_or_ge a.toNat b.toNat with h | h
        · left; simpa using h
        · right
          have : b.toNat < a.toNat := by
            rcases Nat.lt_or_eq_of_le h with h' | h'
            · exact h'
            · exact absurd (charToNat_inj h'.symm) hab
          simpa using this

theorem listCharLE_trans : ∀ as bs cs : List Char,
    listCharLE as bs = true → listCharLE bs cs = true →
    listCharLE as cs = true := by
  intro as
  induction as with
  | nil => intro bs cs _ _; rfl
  | cons a as ih =>
    intro bs cs h1 h2
    cases bs with
    | nil => simp [listCharLE] at h1
    | cons b bs =>
      cases cs with
      | nil => simp [listCharLE] at h2
      | cons c cs =>
        by_cases hab : a = b <;> by_cases hbc : b = c
        · subst hab; subst hbc
          simp only [listCharLE, if_pos rfl] at h1 h2 ⊢
          exact ih _ _ h1 h2
        · subst hab
          simp only [listCharLE, if_pos rfl, if_neg hbc] at h1 h2 ⊢
          exact h2
        · subst hbc
          simp only [listCharLE, if_pos rfl, if_neg hab] at h1 h2 ⊢
          exact h1
        · have hac : ¬ a = c := by
            intro h
            subst h
            simp only [listCharLE, if_neg hab, if_neg hbc, decide_eq_true_eq] at h1 h2
            exact absurd (Nat.lt_trans h1 h2) (Nat.lt_irrefl _)
          simp only [listCharLE, if_neg hab, if_neg hbc, if_neg hac,
            decide_eq_true_eq] at h1 h2 ⊢
          exact Nat.lt_trans h1 h2

theorem listCharLE_antisymm : ∀ as bs : List Char,
    listCharLE as bs = true → listCharLE bs as = true → as = bs := by
  intro as
  induction as with
  | nil =>
    intro bs _ h2
    cases bs with
    | nil => rfl
    | cons b bs => simp [listCharLE] at h2
  | cons a as ih =>
    intro bs h1 h2
    cases bs with
    | nil => simp [listCharLE] at h1
    | cons b bs =>
      by_cases hab : a = b
      · subst hab
        simp only [listCharLE, if_pos rfl] at h1 h2
        rw [ih bs h1 h2]
      · have hba : ¬ b = a := fun h => hab h.symm
        simp only [listCharLE, if_neg hab, if_neg hba, decide_eq_true_eq] at h1 h2
        exact absurd (Nat.lt_trans h1 h2) (Nat.lt_irrefl _)

instance : IsTotal String strLEP :=
  ⟨fun a b => listCharLE_total a.data b.data⟩

instance : IsTrans String strLEP :=
  ⟨fun a b c => listCharLE_trans a.data b.data c.data⟩

instance : IsAntisymm String strLEP :=
  ⟨fun a b h1 h2 => by
    have h := listCharLE_antisymm a.data b.data h1 h2
    cases a; cases b; exact congrArg String.mk h⟩

/-!
Text normalizer: model of SKIP_COMMENTS_REGEX and _skip_comments.

The Python regex is (DOTALL and MULTILINE)

    //.*?$ | /\*.*?\*/ | '(?:\\.|[^\\'])*' | "(?:\\.|[^\\"])*"

and re.sub applies the replacer at the leftmost match, continuing after
the match end, copying one character on no match.  The replacer keeps the
match when it does not start with a slash (character and string literals)
and yields the empty string when it does (both kinds of comments).  Since
the alternatives are keyed by distinct opening characters and the lazy or
greedy repetitions inside them are deterministic (no alternative ever
backtracks into another), re.sub with this pattern is exactly the
left-to-right scanner below.
-/

/-- Scan for the lazily matched end of a block comment: consume up to and
including the first star-slash pair; none when the comment is unterminated
(in which case the Python regex alternative fails to match). -/
def splitBlock : List Char → Option (List Char × List Char)
  | [] => none
  | [_] => none
  | c :: d :: rest =>
    if c = '*' ∧ d = '/' then some ([c, d], rest)
    else (splitBlock (d :: rest)).map (fun p => (c :: p.1, p.2))

/-- Match the tail of a literal after its opening quote q, i.e. the regex
suffix (?:backslash-any | non-backslash-non-q)* q : units are an escaped
character (two characters) or one ordinary character; the result includes
the closing quote.  none when the literal is unterminated, making the
alternative fail (the Python regex has no other way to match here). -/
def splitLit (q : Char) : List Char → Option (List Char × List Char)
  | [] => none
  | c :: rest =>
    if c = q then some ([c], rest)
    else if c = '\\' then
      match rest with
      | [] => none
      | d :: r2 => (splitLit q r2).map (fun p => (c :: d :: p.1, p.2))
    else (splitLit q rest).map (fun p => (c :: p.1, p.2))

/-- One step of the re.sub scan, with explicit fuel; fuel at least the
length of the text is always sufficient since every step consumes at least
one character. -/
def skipAux : Nat → List Char → List Char
  | 0, t => t
  | _ + 1, [] => []
  | f + 1, c :: rest =>
    if c = '/' then
      match rest with
      | [] => c :: skipAux f []
      | d :: r2 =>
        if d = '/' then
          -- line comment //.*?$ : lazy up to the first line end, which the
          -- zero-width dollar does not consume, so scanning resumes at the
          -- newline character itself
          skipAux f (r2.dropWhile (fun x => !(x == '\n')))
        else if d = '*' then
          match splitBlock r2 with
          | some p => skipAux f p.2
          | none => c :: skipAux f rest
        else c :: skipAux f rest
    else if c = '\'' then
      match splitLit '\'' rest with
      | some p => c :: (p.1 ++ skipAux f p.2)
      | none => c :: skipAux f rest
    else if c = '"' then
      match splitLit '"' rest with
      | some p => c :: (p.1 ++ skipAux f p.2)
      | none => c :: skipAux f rest
    else c :: skipAux f rest

/-- The normalizer on character lists. -/
def skipList (t : List Char) : List Char := skipAux t.length t

/-- _skip_comments: re.sub of SKIP_COMMENTS_REGEX with the replacer that
blanks matches starting with a slash and keeps all other matches. -/
def skip_comments (s : String) : String := String.mk (skipList s.data)

theorem length_dropWhile_le (p : Char → Bool) (l : List Char) :
    (l.dropWhile p).length ≤ l.length := by
  induction l with
  | nil => simp
  | cons c rest ih =>
    by_cases h : p c
    · rw [List.dropWhile_cons_of_pos h]
      exact Nat.le_succ_of_le ih
    · rw [List.dropWhile_cons_of_neg h]

theorem splitBlock_length : ∀ (xs : List Char) p, splitBlock xs = some p →
    p.2.length < xs.length := by
  intro xs
  induction xs with
  | nil => intro p h; simp [splitBlock] at h
  | cons c tail ih =>
    intro p h
    cases tail with
    | nil => simp [splitBlock] at h
    | cons d rest =>
      simp only [splitBlock] at h
      split at h
      · cases h
        simp only [List.length_cons]
        omega
      · cases hsb : splitBlock (d :: rest) with
        | none => rw [hsb] at h; simp at h
        | some q =>
          rw [hsb] at h
          simp only [Option.map_some', Option.some.injEq] at h
          have hq := ih q hsb
          subst h
          simp only [List.length_cons] at hq ⊢
          omega

theorem splitLit_length : ∀ (n : Nat) (xs : List Char), xs.length ≤ n →
    ∀ q p, splitLit q xs = some p → p.2.length < xs.length := by
  intro n
  induction n with
  | zero =>
    intro xs hlen q p h
    have : xs = [] := List.eq_nil_of_length_eq_zero (Nat.le_zero.mp hlen)
    subst this
    simp [splitLit] at h
  | succ m ih =>
    intro xs hlen q p h
    cases xs with
    | nil => simp [splitLit] at h
    | cons c rest =>
      cases rest with
      | nil =>
        simp only [splitLit] at h
        split at h
        · cases h; simp
        · split at h
          · exact absurd h (by simp)
          · exact absurd h (by simp)
      | cons d r2 =>
        simp only [splitLit] at h
        split at h
        · cases h; simp
        · split at h
          · cases hsl : splitLit q r2 with
            | none => rw [hsl] at h; simp at h
            | some q2 =>
              rw [hsl] at h
              simp only [Option.map_some', Option.some.injEq] at h
              have hr2 : r2.length ≤ m := by
                simp only [List.length_cons] at hlen
                omega
              have := ih r2 hr2 q q2 hsl
              subst h
              simp only [List.length_cons] at this ⊢
              omega
          · cases hsl : splitLit q (d :: r2) with
            | none => rw [hsl] at h; simp at h
            | some q2 =>
              rw [hsl] at h
              simp only [Option.map_some', Option.some.injEq] at h
              have hr : (d :: r2).length ≤ m := by
                simp only [List.length_cons] at hlen ⊢
                omega
              have := ih (d :: r2) hr q q2 hsl
              subst h
              simp only [List.length_cons] at this ⊢
              omega

theorem skipAux_nil : ∀ f, skipAux f [] = [] := by
  intro f; cases f <;> rfl

/-- Any fuel at least the length of the text gives the same scan result. -/
theorem skipAux_fuel : ∀ (f g : Nat) (t : List Char), t.length ≤ f →
    t.length ≤ g → skipAux f t = skipAux g t := by
  intro f
  induction f with
  | zero =>
    intro g t hf _
    have : t = [] := List.eq_nil_of_length_eq_zero (Nat.le_zero.mp hf)
    subst this
    rw [skipAux_nil, skipAux_nil]
  | succ F ih =>
    intro g t hf hg
    cases g with
    | zero =>
      have : t = [] := List.eq_nil_of_length_eq_zero (Nat.le_zero.mp hg)
      subst this
      rw [skipAux_nil, skipAux_nil]
    | succ G =>
      cases t with
      | nil => rfl
      | cons c rest =>
        have hlen : rest.length ≤ F ∧ rest.length ≤ G := by
          simp only [List.length_cons] at hf hg
          omega
        simp only [skipAux]
        by_cases hc : c = '/'
        · simp only [if_pos hc]
          cases rest with
          | nil => rw [skipAux_nil, skipAux_nil]
          | cons d r2 =>
            have hr2 : r2.length + 1 ≤ F ∧ r2.length + 1 ≤ G := by
              simp only [List.length_cons] at hf hg
              omega
            by_cases hd : d = '/'
            · simp only [if_pos hd]
              have hdw := length_dropWhile_le (fun x => !(x == '\n')) r2
              exact ih G (r2.dropWhile (fun x => !(x == '\n'))) (by omega) (by omega)
            · simp only [if_neg hd]
              by_cases hd2 : d = '*'
              · simp only [if_pos hd2]
                cases hsb : splitBlock r2 with
                | none =>
                  rw [ih G (d :: r2) (by simp only [List.length_cons]; omega)
                    (by simp only [List.length_cons]; omega)]
                | some p =>
                  have := splitBlock_length r2 p hsb
                  exact ih G p.2 (by omega) (by omega)
              · simp only [if_neg hd2]
                rw [ih G (d :: r2) (by simp only [List.length_cons]; omega)
                  (by simp only [List.length_cons]; omega)]
        · simp only [if_neg hc]
          by_cases hq : c = '\''
          · simp only [if_pos hq]
            cases hsl : splitLit '\'' rest with
            | none => exact congrArg (fun x => c :: x) (ih G rest hlen.1 hlen.2)
            | some p =>
              have := splitLit_length rest.length rest (Nat.le_refl _) '\'' p hsl
              exact congrArg (fun x => c :: (p.1 ++ x)) (ih G p.2 (by omega) (by omega))
          · simp only [if_neg hq]
            by_cases hq2 : c = '"'
            · simp only [if_pos hq2]
              cases hsl : splitLit '"' rest with
              | none => exact congrArg (fun x => c :: x) (ih G rest hlen.1 hlen.2)
              | some p =>
                have := splitLit_length rest.length rest (Nat.le_refl _) '"' p hsl
                exact congrArg (fun x => c :: (p.1 ++ x)) (ih G p.2 (by omega) (by omega))
            · simp only [if_neg hq2]
              rw [ih G rest hlen.1 hlen.2]

/-- Does the character list contain an adjacent star-slash pair (a block
comment closer)? -/
def hasStarSlash : List Char → Bool
  | c :: d :: rest => ((c == '*') && (d == '/')) || hasStarSlash (d :: rest)
  | _ => false

/-- Is the character list a valid literal body for quote q: no unescaped
quote and no dangling backslash, i.e. a sequence of units where each unit
is an escaped pair or a single character that is neither the quote nor a
backslash. -/
def litBody (q : Char) : List Char → Bool
  | [] => true
  | c :: rest =>
    if c = q then false
    else if c = '\\' then
      match rest with
      | [] => false
      | _ :: r2 => litBody q r2
    else litBody q rest

theorem dropWhile_append_newline : ∀ (s rest : List Char),
    (∀ c ∈ s, c ≠ '\n') →
    (s ++ '\n' :: rest).dropWhile (fun x => !(x == '\n')) = '\n' :: rest := by
  intro s rest hs
  induction s with
  | nil => simp [List.dropWhile]
  | cons c s ih =>
    have hc : c ≠ '\n' := hs c (List.mem_cons_self c s)
    have : (c == '\n') = false := by simpa using hc
    rw [List.cons_append, List.dropWhile_cons_of_pos (by simp [this])]
    exact ih (fun x hx => hs x (List.mem_cons_of_mem c hx))

theorem splitBlock_append : ∀ (s rest : List Char), hasStarSlash s = false →
    splitBlock (s ++ '*' :: '/' :: rest) = some (s ++ ['*', '/'], rest) := by
  intro s
  induction s with
  | nil =>
    intro rest _
    simp [splitBlock]
  | cons c s ih =>
    intro rest hss
    cases s with
    | nil =>
      have hcd : ¬ (c = '*' ∧ '*' = '/') := by
        rintro ⟨-, h⟩
        exact absurd h (by decide)
      simp [splitBlock, if_neg hcd]
    | cons d s2 =>
      have hpair : ((c == '*') && (d == '/')) = false ∧
          hasStarSlash (d :: s2) = false := by
        simp only [hasStarSlash, Bool.or_eq_false_iff] at hss
        exact hss
      have hcd : ¬ (c = '*' ∧ d = '/') := by
        rintro ⟨h1, h2⟩
        subst h1; subst h2
        simp at hpair
      have ihd := ih rest hpair.2
      rw [List.cons_append] at ihd
      simp only [List.cons_append, splitBlock, if_neg hcd, List.append_eq]
      rw [ihd]
      rfl

theorem litBody_cons (q c : Char) (s : List Char) :
    litBody q (c :: s) =
      if c = q then false
      else if c = '\\' then
        (match s with | [] => false | _ :: r2 => litBody q r2)
      else litBody q s := by
  rw [litBody.eq_def]

theorem splitLit_append : ∀ (n : Nat) (s : List Char), s.length ≤ n →
    ∀ (q : Char) (rest : List Char), q ≠ '\\' → litBody q s = true →
    splitLit q (s ++ q :: rest) = some (s ++ [q], rest) := by
  intro n
  induction n with
  | zero =>
    intro s hlen q rest _ _
    have : s = [] := List.eq_nil_of_length_eq_zero (Nat.le_zero.mp hlen)
    subst this
    cases rest <;> simp [splitLit]
  | succ m ih =>
    intro s hlen q rest hq hbody
    cases s with
    | nil =>
      cases rest <;> simp [splitLit]
    | cons c s2 =>
      rw [litBody_cons] at hbody
      have hcq : ¬ c = q := by
        intro h
        rw [if_pos h] at hbody
        exact Bool.false_ne_true hbody
      by_cases hbs : c = '\\'
      · subst hbs
        rw [if_neg hcq, if_pos rfl] at hbody
        cases s2 with
        | nil => exact absurd hbody (by simp)
        | cons d s3 =>
          have hbody3 : litBody q s3 = true := hbody
          have hlen3 : s3.length ≤ m := by
            simp only [List.length_cons] at hlen
            omega
          have ihs := ih s3 hlen3 q rest hq hbody3
          have hstep : splitLit q ('\\' :: d :: (s3 ++ q :: rest)) =
              (splitLit q (s3 ++ q :: rest)).map
                (fun p => ('\\' :: d :: p.1, p.2)) := by
            have hnq : ¬ ('\\' : Char) = q := fun h => hq h.symm
            simp [splitLit, if_neg hnq]
          simp only [List.cons_append, hstep, ihs, Option.map_some']
      · rw [if_neg hcq, if_neg hbs] at hbody
        have hlen2 : s2.length ≤ m := by
          simp only [List.length_cons] at hlen
          omega
        have ihs := ih s2 hlen2 q rest hq hbody
        have hstep : splitLit q (c :: (s2 ++ q :: rest)) =
            (splitLit q (s2 ++ q :: rest)).map (fun p => (c :: p.1, p.2)) := by
          cases hs2 : s2 ++ q :: rest with
          | nil => exact absurd hs2 (by simp)
          | cons e r3 =>
            cases r3 with
            | nil =>
              simp [splitLit, if_neg hcq, if_neg hbs]
            | cons e2 r4 =>
              simp [splitLit, if_neg hcq, if_neg hbs]
        simp only [List.cons_append, hstep, ihs, Option.map_some']

/-!
Declaration scanners: models of TEST_FUNC_REGEX and EVENT_CB_REGEX findall
with re.MULTILINE.

    TEST_FUNC_REGEX = ^(void\s+(test_%s__(\w+))\(\s*void\s*\))\s*\{
    EVENT_CB_REGEX  = ^(void\s+clar_on_(\w+)\(\s*void\s*\))\s*\{

The percent interpolation inserts the suite name into the pattern without
escaping.  matchPat interprets the interpolated characters: a dot is the
regex any-character metacharacter (anything but a newline, since this
pattern is compiled without DOTALL), every other character matches itself.
That is the Python semantics for suite names built from word characters,
underscores, dashes and dots; other regex metacharacters are outside the
model.  Greedy pieces never backtrack here: after each \s+ or \s* the
pattern requires a non-space character, and \w+ is followed by a
non-word character, so the parsers below are exact.  findall walks the
text left to right, only tries a match at the start of a line, and resumes
after the end of a successful match.
-/

/-- Python regex whitespace class \s for ASCII text. -/
def isSpacePy (c : Char) : Bool :=
  (c == ' ') || (c == '\t') || (c == '\n') || (c == '\r') ||
    (c == '\x0b') || (c == '\x0c')

/-- Python regex word class \w for ASCII text. -/
def isWordChar (c : Char) : Bool := c.isAlpha || c.isDigit || c == '_'

/-- Match an exact sequence of characters, returning the remainder. -/
def expectStr : List Char → List Char → Option (List Char)
  | [], t => some t
  | _ :: _, [] => none
  | e :: es, c :: cs => if c = e then expectStr es cs else none

/-- Match the interpolated (unescaped) suite-name segment of the pattern:
each pattern character consumes exactly one text character, a dot matching
anything but a newline, any other character matching itself.  Returns the
consumed text segment and the remainder. -/
def matchPat : List Char → List Char → Option (List Char × List Char)
  | [], t => some ([], t)
  | _ :: _, [] => none
  | p :: ps, c :: cs =>
    if p = '.' then
      if c = '\n' then none
      else (matchPat ps cs).map (fun r => (c :: r.1, r.2))
    else if p = c then (matchPat ps cs).map (fun r => (c :: r.1, r.2))
    else none

def voidTok : List Char := ['v', 'o', 'i', 'd']

def testTok : List Char := ['t', 'e', 's', 't', '_']

def dunderTok : List Char := ['_', '_']

def clarOnTok : List Char := ['c', 'l', 'a', 'r', '_', 'o', 'n', '_']

/-- Try TEST_FUNC_REGEX (with the suite name interpolated as pat) at the
current position; on success return the three findall groups
(declaration, symbol, short name) and the text after the match. -/
def tryTestMatch (pat : List Char) (text : List Char) :
    Option ((List Char × List Char × List Char) × List Char) :=
  match expectStr voidTok text with
  | none => none
  | some t1 =>
    let ws1 := t1.takeWhile isSpacePy
    if ws1.isEmpty then none
    else
      let t2 := t1.dropWhile isSpacePy
      match expectStr testTok t2 with
      | none => none
      | some t3 =>
        match matchPat pat t3 with
        | none => none
        | some (seg, t4) =>
          match expectStr dunderTok t4 with
          | none => none
          | some t5 =>
            let nm := t5.takeWhile isWordChar
            if nm.isEmpty then none
            else
              let t6 := t5.dropWhile isWordChar
              match expectStr ['('] t6 with
              | none => none
              | some t7 =>
                let ws2 := t7.takeWhile isSpacePy
                let t8 := t7.dropWhile isSpacePy
                match expectStr voidTok t8 with
                | none => none
                | some t9 =>
                  let ws3 := t9.takeWhile isSpacePy
                  let t10 := t9.dropWhile isSpacePy
                  match expectStr [')'] t10 with
                  | none => none
                  | some t11 =>
                    let t12 := t11.dropWhile isSpacePy
                    match expectStr ['\x7b'] t12 with
                    | none => none
                    | some t13 =>
                      let symbol := testTok ++ seg ++ dunderTok ++ nm
                      let decl := voidTok ++ ws1 ++ symbol ++ ['('] ++ ws2 ++
                        voidTok ++ ws3 ++ [')']
                      some ((decl, symbol, nm), t13)

/-- findall loop for TEST_FUNC_REGEX: only positions at the start of a line
can match (the caret with MULTILINE); after a match scanning resumes right
after the consumed text (whose last character is an opening brace, so the
next position is not a line start); otherwise one character is skipped.
Fuel one more than the text length is always enough, since every step
consumes at least one character. -/
def findTestsAux (pat : List Char) :
    Nat → Bool → List Char → List (List Char × List Char × List Char)
  | 0, _, _ => []
  | f + 1, lineStart, text =>
    match (if lineStart then tryTestMatch pat text else none) with
    | some (t, rest) => t :: findTestsAux pat f false rest
    | none =>
      match text with
      | [] => []
      | c :: rest => findTestsAux pat f (c == '\n') rest

/-- regex.findall(contents) for the compiled TEST_FUNC_REGEX % suite_name,
as used by _process_declarations: the list of
(declaration, symbol, short_name) group tuples. -/
def findTests (suite_name : String) (text : String) :
    List (String × String × String) :=
  (findTestsAux suite_name.data (text.data.length + 1) true text.data).map
    (fun t => (String.mk t.1, String.mk t.2.1, String.mk t.2.2))

/-- Try EVENT_CB_REGEX at the current position; on success return the two
findall groups (declaration, event name) and the text after the match. -/
def tryEventMatch (text : List Char) :
    Option ((List Char × List Char) × List Char) :=
  match expectStr voidTok text with
  | none => none
  | some t1 =>
    let ws1 := t1.takeWhile isSpacePy
    if ws1.isEmpty then none
    else
      let t2 := t1.dropWhile isSpacePy
      match expectStr clarOnTok t2 with
      | none => none
      | some t3 =>
        let nm := t3.takeWhile isWordChar
        if nm.isEmpty then none
        else
          let t4 := t3.dropWhile isWordChar
          match expectStr ['('] t4 with
          | none => none
          | some t5 =>
            let ws2 := t5.takeWhile isSpacePy
            let t6 := t5.dropWhile isSpacePy
            match expectStr voidTok t6 with
            | none => none
            | some t7 =>
              let ws3 := t7.takeWhile isSpacePy
              let t8 := t7.dropWhile isSpacePy
              match expectStr [')'] t8 with
              | none => none
              | some t9 =>
                let t10 := t9.dropWhile isSpacePy
                match expectStr ['\x7b'] t10 with
                | none => none
                | some t11 =>
                  let decl := voidTok ++ ws1 ++ clarOnTok ++ nm ++ ['('] ++
                    ws2 ++ voidTok ++ ws3 ++ [')']
                  some ((decl, nm), t11)

/-- findall loop for EVENT_CB_REGEX, line anchored like findTestsAux. -/
def findEventsAux : Nat → Bool → List Char → List (List Char × List Char)
  | 0, _, _ => []
  | f + 1, lineStart, text =>
    match (if lineStart then tryEventMatch text else none) with
    | some (t, rest) => t :: findEventsAux f false rest
    | none =>
      match text with
      | [] => []
      | c :: rest => findEventsAux f (c == '\n') rest

/-- EVENT_CB_REGEX.findall(contents), as used by _process_events: the list
of (declaration, event) group tuples. -/
def findEvents (text : String) : List (String × String) :=
  (findEventsAux (text.data.length + 1) true text.data).map
    (fun t => (String.mk t.1, String.mk t.2))

/-!
Suite model builder: ClarTestBuilder state and the _process_* methods.
-/

/-- A scanned test callback, as stored in _process_declarations. -/
structure Callback where
  short_name : String
  declaration : String
  symbol : String
deriving DecidableEq

/-- A suite record, as stored in suite_data. -/
structure Suite where
  name : String
  categorizeCb : Option Callback
  initializeCb : Option Callback
  cleanupCb : Option Callback
  cb_count : Nat
deriving DecidableEq

/-- The mutable collections of a ClarTestBuilder.  The Python dicts
callback_data and suite_data are modelled as insertion-ordered association
lists with overwrite-in-place semantics (dictInsert below); path, modules
and print_mode only feed the file I/O and the opaque module concatenation,
so they are not part of the model. -/
structure BuilderState where
  declarations : List String
  suite_names : List String
  callback_data : List (String × List Callback)
  suite_data : List (String × Suite)
  event_callbacks : List String
deriving DecidableEq

def initState : BuilderState :=
  { declarations := []
    suite_names := []
    callback_data := []
    suite_data := []
    event_callbacks := [] }

def CLAR_EVENTS : List String := [r"init", r"shutdown", r"test", r"suite"]

/-- Python dict assignment d[k] = v: overwrite in place if the key exists,
else append, preserving insertion order. -/
def dictInsert {α : Type} (k : String) (v : α) (d : List (String × α)) :
    List (String × α) :=
  if d.any (fun p => p.1 == k) then
    d.map (fun p => if p.1 == k then (k, v) else p)
  else d ++ [(k, v)]

/-- Python dict lookup d[k], partial. -/
def dictGet? {α : Type} (d : List (String × α)) (k : String) : Option α :=
  (d.find? (fun p => p.1 == k)).map (fun p => p.2)

/-- The loop state of _process_declarations: the three reserved slots and
the ordinary callback list. -/
structure ClassifyAcc where
  categorizeCb : Option Callback
  initializeCb : Option Callback
  cleanupCb : Option Callback
  callbacks : List Callback
deriving DecidableEq

/-- The classification loop body of _process_declarations, verbatim: note
that the categorize test is a separate if statement, while initialize and
cleanup form an if/elif chain whose else branch appends to the ordinary
callback list.  A tuple is (declaration, symbol, short_name), the findall
group order. -/
def classifyStep (acc : ClassifyAcc) (t : String × String × String) :
    ClassifyAcc :=
  let data : Callback :=
    { short_name := t.2.2, declaration := t.1, symbol := t.2.1 }
  let acc1 :=
    if t.2.2 = "categorize" then { acc with categorizeCb := some data }
    else acc
  if t.2.2 = "initialize" then { acc1 with initializeCb := some data }
  else if t.2.2 = "cleanup" then { acc1 with cleanupCb := some data }
  else { acc1 with callbacks := acc1.callbacks ++ [data] }

def classifyAll (scanned : List (String × String × String)) : ClassifyAcc :=
  scanned.foldl classifyStep ⟨none, none, none, []⟩

/-- Sorting relation used by callbacks.sort(key=lambda x: x['short_name']). -/
def cbLEP (a b : Callback) : Prop := strLE a.short_name b.short_name = true

instance : DecidableRel cbLEP := fun a b =>
  inferInstanceAs (Decidable (strLE a.short_name b.short_name = true))

instance : IsTotal Callback cbLEP :=
  ⟨fun a b => listCharLE_total a.short_name.data b.short_name.data⟩

instance : IsTrans Callback cbLEP :=
  ⟨fun a b c => listCharLE_trans a.short_name.data b.short_name.data
    c.short_name.data⟩

/-- The per-suite callback list as stored into callback_data: the ordinary
list produced by the classification loop, stably sorted by short name. -/
def storedCallbacks (scanned : List (String × String × String)) :
    List Callback :=
  List.insertionSort cbLEP (classifyAll scanned).callbacks

/-- _process_declarations: classify the scanned tuples, bail out when the
callbacks list is empty, otherwise register the suite, its reserved and
ordinary declarations (in that order, before sorting), the sorted callback
list, the suite record and the suite name. -/
def processDeclarations (st : BuilderState) (suite_name : String)
    (scanned : List (String × String × String)) : BuilderState :=
  let acc := classifyAll scanned
  if acc.callbacks.isEmpty then st
  else
    let suite : Suite :=
      { name := suite_name
        categorizeCb := acc.categorizeCb
        initializeCb := acc.initializeCb
        cleanupCb := acc.cleanupCb
        cb_count := acc.callbacks.length }
    let decls := st.declarations
      ++ (match acc.categorizeCb with | some cb => [cb.declaration] | none => [])
      ++ (match acc.initializeCb with | some cb => [cb.declaration] | none => [])
      ++ (match acc.cleanupCb with | some cb => [cb.declaration] | none => [])
      ++ acc.callbacks.map (fun cb => cb.declaration)
    { declarations := decls
      suite_names := st.suite_names ++ [suite_name]
      callback_data := dictInsert suite_name (storedCallbacks scanned)
        st.callback_data
      suite_data := dictInsert suite_name suite st.suite_data
      event_callbacks := st.event_callbacks }

/-- _process_events: register every scanned clar_on_ declaration whose
event name is recognized; unrecognized names are skipped. -/
def processEvents (st : BuilderState) (found : List (String × String)) :
    BuilderState :=
  found.foldl
    (fun s p =>
      if p.2 ∈ CLAR_EVENTS then
        { s with
          declarations := s.declarations ++ [p.1]
          event_callbacks := s.event_callbacks ++ [p.2] }
      else s) st

/-- _process_test_file: normalize the contents, then process events, then
process test declarations. -/
def processTestFile (st : BuilderState) (suite_name : String)
    (contents : String) : BuilderState :=
  let c2 := skip_comments contents
  let st1 := processEvents st (findEvents c2)
  processDeclarations st1 suite_name (findTests suite_name c2)

/-- The directory walk of ClarTestBuilder.__init__, over a list of
(derived suite name, file contents) pairs in walk order. -/
def buildState (files : List (String × String)) : BuilderState :=
  files.foldl (fun st f => processTestFile st f.1 f.2) initState

/-- ClarTestBuilder.__init__ after the walk: a RuntimeError is raised when
suite_data is empty, so rendering can never start in that case. -/
def clarBuild (path : String) (files : List (String × String)) :
    Except String BuilderState :=
  let st := buildState files
  if st.suite_data.isEmpty then
    Except.error ("No tests found under \"" ++ path ++ "\"")
  else Except.ok st

/-!
Renderer.  _render_cb, _render_callbacks, _render_suite and
_render_event_overrides have their templates inline in the source and are
rendered here as the exact strings they produce (the Template.substitute
plus .strip() of each is precomputed on the constant template text).
_render_main and _render_header fill the bundled clar.c and clar.h
template assets, which are opaque blobs outside the scanned source;
following the specification, the main output is modelled as the record of
the five substitution values and the header output as the substituted
extern declaration block.
-/

def underscoreStr : String := "_"

def namespaceSep : String := "::"

/-- _render_cb. -/
def render_cb (cb : Callback) : String :=
  "\x7b\"" ++ cb.short_name ++ "\", &" ++ cb.symbol ++ "\x7d"

/-- The reserved short names filtered out of the rendered callback array
by _render_callbacks. -/
def reservedName (s : String) : Bool :=
  (s == "categorize") || (s == "initialize") || (s == "cleanup")

/-- The entry list of a rendered per-suite callback array: the non-reserved
callbacks, each rendered by _render_cb, in list order. -/
def renderCallbackEntries (cbs : List Callback) : List String :=
  (cbs.filter (fun cb => !(reservedName cb.short_name))).map render_cb

/-- _render_callbacks. -/
def render_callbacks (suite_name : String) (cbs : List Callback) : String :=
  "static const struct clar_func _clar_cb_" ++ suite_name ++ "[] = \x7b\n    " ++
    String.intercalate ",\n\t" (renderCallbackEntries cbs) ++ "\n\x7d;"

/-- _render_suite: the suite descriptor literal with its index, display
name (underscores replaced by the namespace separator), the three reserved
slots (a rendered pair or the null pair), the callback array pointer and
cb_count. -/
def render_suite (suite : Suite) (index : Nat) : String :=
  let slot := fun (ocb : Option Callback) =>
    match ocb with
    | some cb => render_cb cb
    | none => "\x7bNULL, NULL\x7d"
  "\x7b\n        " ++ toString index ++ ",\n        \"" ++
    String.replace suite.name underscoreStr namespaceSep ++ "\",\n        " ++
    slot suite.categorizeCb ++ ",\n        " ++
    slot suite.initializeCb ++ ",\n        " ++
    slot suite.cleanupCb ++ ",\n        _clar_cb_" ++ suite.name ++ ", " ++
    toString suite.cb_count ++ "\n    \x7d"

/-- The no-op macro emitted for an event with no user-defined callback. -/
def macroFor (e : String) : String :=
  "#define clar_on_" ++ e ++ "() /* nop */"

/-- _render_event_overrides as a list: one macro per recognized event not
present in event_callbacks, in CLAR_EVENTS enumeration order. -/
def eventOverrideList (evcbs : List String) : List String :=
  (CLAR_EVENTS.filter (fun e => !(evcbs.contains e))).map macroFor

/-- _render_event_overrides: the joined override block. -/
def render_event_overrides (evcbs : List String) : String :=
  String.intercalate "\n" (eventOverrideList evcbs)

/-- The five substitution values _render_main feeds into the clar.c
template (clar_modules, the opaque concatenation of bundled module texts,
is not modelled). -/
structure MainSubst where
  clar_callbacks : List String
  clar_suites : List String
  clar_suite_count : Nat
  clar_callback_count : Nat
  clar_event_overrides : List String
deriving DecidableEq

/-- sorted(self.suite_names). -/
def mainSuiteNames (st : BuilderState) : List String :=
  List.insertionSort strLEP st.suite_names

/-- The enumerate loop of _render_main: one rendered suite descriptor per
sorted suite name, with its 0-based position as index.  The none branch is
unreachable for states built by processDeclarations, which always inserts
suite_data and suite_names together (Python would raise a KeyError). -/
def renderSuitesFrom (st : BuilderState) : Nat → List String → List String
  | _, [] => []
  | i, s :: rest =>
    (match dictGet? st.suite_data s with
     | some su => render_suite su i
     | none => "") :: renderSuitesFrom st (i + 1) rest

/-- _render_main: the substitution values.  clar_callback_count is the sum
of the lengths of the callback_data values, exactly as in the source. -/
def render_main (st : BuilderState) : MainSubst :=
  { clar_callbacks := (mainSuiteNames st).map
      (fun s => render_callbacks s ((dictGet? st.callback_data s).getD []))
    clar_suites := renderSuitesFrom st 0 (mainSuiteNames st)
    clar_suite_count := (renderSuitesFrom st 0 (mainSuiteNames st)).length
    clar_callback_count := (st.callback_data.map (fun p => p.2.length)).sum
    clar_event_overrides := eventOverrideList st.event_callbacks }

/-- _render_header: the extern declaration block substituted into the
clar.h template, one line per declaration, sorted. -/
def render_header (st : BuilderState) : String :=
  String.intercalate "\n" ((List.insertionSort strLEP st.declarations).map
    (fun d => "extern " ++ d ++ ";"))

/-- main + ClarTestBuilder.render for one folder: build the state from the
walked files; on success both outputs are produced from the one final
state, otherwise the RuntimeError aborts before any rendering. -/
def clarRun (path : String) (files : List (String × String)) :
    Except String (MainSubst × String) :=
  (clarBuild path files).map (fun st => (render_main st, render_header st))

/-!
Claim theorems.
-/

/-- The suite name and file contents exhibiting the categorize
classification slip: a categorize callback plus one ordinary test. -/
def suiteS : String := r"s"

def catOneFile : String :=
  "void test_s__categorize(void) \x7b\n\x7d\nvoid test_s__one(void) \x7b\n\x7d\n"

def catOnlyFile : String :=
  "void test_s__categorize(void) \x7b\n\x7d\n"

/-- C1: the claim states that a scanned test function with a reserved short
name (categorize, initialize, cleanup) is captured into exactly that
reserved role and never placed in the ordinary callback list, so that it
never contributes to cb_count.  The code violates this for categorize: the
categorize check is a separate if statement, not part of the following
if/elif/else chain, so a categorize function falls through to the else
branch as well.  On a file defining test_s__categorize and test_s__one the
suite records cb_count = 2, and the stored ordinary callback list contains
the categorize entry (even though it is captured into the categorize slot
too) - contradicting the rendered callback array, which filters it out and
has a single entry. -/
theorem C1_categorize_also_ordinary :
    (dictGet? (processTestFile initState suiteS catOneFile).suite_data
        suiteS).map Suite.cb_count = some 2
    ∧ ((dictGet? (processTestFile initState suiteS catOneFile).callback_data
        suiteS).getD []).any (fun cb => cb.short_name == "categorize") = true
    ∧ (dictGet? (processTestFile initState suiteS catOneFile).suite_data
        suiteS).map (fun su => su.categorizeCb.isSome) = some true
    ∧ (renderCallbackEntries
        ((dictGet? (processTestFile initState suiteS catOneFile).callback_data
          suiteS).getD [])).length = 1 := by
  decide

/-- C3: the claim states that the total callback count substituted into the
generated main file equals the sum over all suites of the number of
non-reserved callbacks.  Because of the categorize slip the stored
callback_data lists include categorize entries, and _render_main counts
them: on a file with test_s__categorize and test_s__one the emitted
clar_callback_count is 2 while the suites hold exactly one ordinary
(non-reserved) callback in total and the rendered arrays hold one entry in
total. -/
theorem C3_callback_count_includes_categorize :
    (render_main (processTestFile initState suiteS catOneFile)).clar_callback_count
      = 2
    ∧ ((processTestFile initState suiteS catOneFile).callback_data.map
        (fun p => (p.2.filter (fun cb => !(reservedName cb.short_name))).length)).sum
      = 1
    ∧ ((render_main (processTestFile initState suiteS catOneFile)).clar_callbacks
      = [render_callbacks suiteS
          ((dictGet? (processTestFile initState suiteS catOneFile).callback_data
            suiteS).getD [])]) := by
  decide

/-- C4: the claim states that a file whose scanned functions include no
ordinary (non-reserved) callback creates no suite and leaves the aggregate
state unchanged, even when it defines reserved callbacks.  Because of the
categorize slip a file defining only test_s__categorize does create suite
s with cb_count = 1, appends the suite name, stores callback and suite
records, and registers the categorize declaration twice (once as the
reserved slot, once as a member of the ordinary list). -/
theorem C4_categorize_only_creates_suite :
    (processTestFile initState suiteS catOnlyFile).suite_names = [suiteS]
    ∧ (dictGet? (processTestFile initState suiteS catOnlyFile).suite_data
        suiteS).map Suite.cb_count = some 1
    ∧ (processTestFile initState suiteS catOnlyFile).declarations =
        [r"void test_s__categorize(void)", r"void test_s__categorize(void)"]
    ∧ processTestFile initState suiteS catOnlyFile ≠ initState := by
  decide

/-- A string literal input for the normalizer claim. -/
def strLitOnly : String := "\"abc\""

/-- C2 counterexample: the claim states that every character literal span
and every string literal span is replaced by the empty string.  On the
input consisting of the single string literal "abc" the normalizer
returns the input unchanged, not the empty string the claim requires:
_skip_comments's replacer returns the match itself whenever the match does
not start with a slash. -/
theorem C2_counterexample :
    skip_comments strLitOnly = strLitOnly ∧ strLitOnly ≠ "" := by
  decide

/-- C7: after the directory walk, ClarTestBuilder.__init__ raises the
RuntimeError exactly when suite_data is empty, with the message naming the
scanned root path, and in that case no rendering happens; with at least
one suite no error is raised and the run produces the main and header
outputs together, from the single final state - so one output is never
produced without the other. -/
theorem C7_no_tests_error (path : String) (files : List (String × String)) :
    ((buildState files).suite_data = [] →
      clarRun path files =
        Except.error ("No tests found under \"" ++ path ++ "\"")) ∧
    ((buildState files).suite_data ≠ [] →
      clarRun path files =
        Except.ok (render_main (buildState files),
          render_header (buildState files))) := by
  constructor
  · intro h
    simp [clarRun, clarBuild, Except.map, h]
  · intro h
    have hne : (buildState files).suite_data.isEmpty = false := by
      cases hsd : (buildState files).suite_data with
      | nil => exact absurd hsd h
      | cons a t => rfl
    simp [clarRun, clarBuild, Except.map, hne]

/-- Witness for C7: on an empty walk the run aborts with the error naming
the root path, before producing any output. -/
theorem C7_no_tests_error_witness :
    clarRun (r"mytests") [] =
      Except.error ("No tests found under \"" ++ r"mytests" ++ "\"") :=
  (C7_no_tests_error (r"mytests") []).1 (by decide)

theorem macroFor_inj_on : ∀ e₁ ∈ CLAR_EVENTS, ∀ e₂ ∈ CLAR_EVENTS,
    macroFor e₁ = macroFor e₂ → e₁ = e₂ := by decide

/-- Membership in the override block, for recognized events: a macro is
emitted exactly for the events not present in event_callbacks. -/
theorem eventOverrideList_mem_iff (evcbs : List String) (e : String)
    (he : e ∈ CLAR_EVENTS) :
    macroFor e ∈ eventOverrideList evcbs ↔ evcbs.contains e = false := by
  constructor
  · intro hmem
    rcases List.mem_map.mp hmem with ⟨e2, he2, heq⟩
    have he2' : e2 ∈ CLAR_EVENTS := List.mem_of_mem_filter he2
    have : e2 = e := macroFor_inj_on e2 he2' e he heq
    subst this
    have := (List.mem_filter.mp he2).2
    simpa using this
  · intro hc
    refine List.mem_map_of_mem macroFor (List.mem_filter.mpr ⟨he, ?_⟩)
    simp only [Bool.not_eq_true']
    exact hc

/-- C6: for every collection of discovered user-defined events, the
override block holds exactly one no-op macro for each recognized event
(init, shutdown, test, suite) that was never found, none for events that
were found, in the fixed CLAR_EVENTS enumeration order (the emitted events
form a sublist of the enumeration), and the block depends only on which
events were found, not on their discovery order. -/
theorem C6_event_overrides (evcbs : List String) :
    (∀ e, e ∈ CLAR_EVENTS →
      (macroFor e ∈ eventOverrideList evcbs ↔ evcbs.contains e = false))
    ∧ (eventOverrideList evcbs).Nodup
    ∧ (∃ l : List String,
        l.Sublist CLAR_EVENTS ∧ eventOverrideList evcbs = l.map macroFor)
    ∧ (∀ evcbs' : List String,
        (∀ x, evcbs.contains x = evcbs'.contains x) →
        eventOverrideList evcbs = eventOverrideList evcbs') := by
  refine ⟨fun e he => eventOverrideList_mem_iff evcbs e he, ?_, ?_, ?_⟩
  · have hnd : CLAR_EVENTS.Nodup := by decide
    refine List.Nodup.map_on ?_ (hnd.filter _)
    intro x hx y hy hxy
    exact macroFor_inj_on x (List.mem_of_mem_filter hx) y
      (List.mem_of_mem_filter hy) hxy
  · exact ⟨CLAR_EVENTS.filter (fun e => !(evcbs.contains e)),
      List.filter_sublist _, rfl⟩
  · intro evcbs' hsame
    unfold eventOverrideList
    rw [List.filter_congr (fun x _ => by rw [hsame x])]

/-- Witness for C6: with only init discovered, the block has a macro for
test. -/
theorem C6_event_overrides_witness :
    macroFor (r"test") ∈ eventOverrideList [r"init"] ↔
      ([r"init"] : List String).contains (r"test") = false :=
  (C6_event_overrides [r"init"]).1 (r"test") (by decide)

theorem processEvents_decl_mono (found : List (String × String)) :
    ∀ (st : BuilderState) (x : String), x ∈ st.declarations →
      x ∈ (processEvents st found).declarations := by
  induction found with
  | nil => intro st x hx; exact hx
  | cons p found ih =>
    intro st x hx
    show x ∈ (processEvents _ found).declarations
    by_cases hp : p.2 ∈ CLAR_EVENTS
    · refine ih _ x ?_
      simp only [if_pos hp]
      exact List.mem_append_left _ hx
    · refine ih _ x ?_
      simp only [if_neg hp]
      exact hx

theorem processEvents_ev_mono (found : List (String × String)) :
    ∀ (st : BuilderState) (x : String), x ∈ st.event_callbacks →
      x ∈ (processEvents st found).event_callbacks := by
  induction found with
  | nil => intro st x hx; exact hx
  | cons p found ih =>
    intro st x hx
    show x ∈ (processEvents _ found).event_callbacks
    by_cases hp : p.2 ∈ CLAR_EVENTS
    · refine ih _ x ?_
      simp only [if_pos hp]
      exact List.mem_append_left _ hx
    · refine ih _ x ?_
      simp only [if_neg hp]
      exact hx

/-- Every recognized scanned event is registered by _process_events: its
declaration joins the global declaration list and its name the
event_callbacks list. -/
theorem processEvents_mem (found : List (String × String)) :
    ∀ (st : BuilderState) (d e : String), (d, e) ∈ found → e ∈ CLAR_EVENTS →
      d ∈ (processEvents st found).declarations ∧
      e ∈ (processEvents st found).event_callbacks := by
  induction found with
  | nil => intro st d e hmem _; exact absurd hmem (List.not_mem_nil _)
  | cons p found ih =>
    intro st d e hmem hev
    rcases List.mem_cons.mp hmem with heq | hmem2
    · subst heq
      simp only [processEvents, List.foldl_cons, if_pos hev]
      constructor
      · exact processEvents_decl_mono found _ d
          (List.mem_append_right _ (List.mem_singleton.mpr rfl))
      · exact processEvents_ev_mono found _ e
          (List.mem_append_right _ (List.mem_singleton.mpr rfl))
    · exact ih _ d e hmem2 hev

theorem processDeclarations_evcbs (st : BuilderState) (s : String)
    (scanned : List (String × String × String)) :
    (processDeclarations st s scanned).event_callbacks = st.event_callbacks := by
  by_cases h : (classifyAll scanned).callbacks.isEmpty
  · simp [processDeclarations, h]
  · simp [processDeclarations, h]

theorem processDeclarations_decl_mono (st : BuilderState) (s : String)
    (scanned : List (String × String × String)) (x : String)
    (hx : x ∈ st.declarations) :
    x ∈ (processDeclarations st s scanned).declarations := by
  by_cases h : (classifyAll scanned).callbacks.isEmpty
  · simp only [processDeclarations, h, if_pos]
    exact hx
  · simp only [processDeclarations, h, if_neg, Bool.false_eq_true,
      not_false_iff]
    exact List.mem_append_left _ (List.mem_append_left _
      (List.mem_append_left _ (List.mem_append_left _ hx)))

/-- C10: every scanned top-level clar_on_ definition with a recognized
event name is registered globally by _process_test_file - its declaration
is in the final declaration list, the event is marked user-defined, and no
no-op override for it is emitted - independently of what
_process_declarations later does with the file's tests (in particular even
when the file yields no suite). -/
theorem C10_events_registered (st : BuilderState) (sname contents d e : String)
    (hmem : (d, e) ∈ findEvents (skip_comments contents))
    (hev : e ∈ CLAR_EVENTS) :
    d ∈ (processTestFile st sname contents).declarations
    ∧ e ∈ (processTestFile st sname contents).event_callbacks
    ∧ macroFor e ∉
        eventOverrideList (processTestFile st sname contents).event_callbacks := by
  have h := processEvents_mem (findEvents (skip_comments contents)) st d e hmem hev
  unfold processTestFile
  refine ⟨processDeclarations_decl_mono _ _ _ _ h.1, ?_, ?_⟩
  · rw [processDeclarations_evcbs]
    exact h.2
  · rw [processDeclarations_evcbs]
    intro hmacro
    have hc := (eventOverrideList_mem_iff _ e hev).mp hmacro
    have : e ∈ (processEvents st (findEvents (skip_comments contents))).event_callbacks := h.2
    have h2 : (processEvents st
        (findEvents (skip_comments contents))).event_callbacks.contains e = true :=
      List.elem_eq_true_of_mem this
    exact absurd (h2.symm.trans hc) (by decide)

/-- A file defining a recognized event callback and no test functions. -/
def evFile : String := "void clar_on_init(void) \x7b\n\x7d\n"

/-- Witness for C10: a file holding only clar_on_init still registers the
init event and its declaration, and suppresses the init override, although
it produces no suite. -/
theorem C10_events_registered_witness :
    (r"void clar_on_init(void)" : String) ∈
        (processTestFile initState suiteS evFile).declarations
    ∧ (r"init" : String) ∈
        (processTestFile initState suiteS evFile).event_callbacks
    ∧ macroFor (r"init") ∉
        eventOverrideList (processTestFile initState suiteS evFile).event_callbacks :=
  C10_events_registered initState suiteS evFile
    (r"void clar_on_init(void)") (r"init") (by decide) (by decide)

/-- A suite name with a regex metacharacter (as derived from a file name
with an extra dot, e.g. a.b.c) and a file it wrongly matches. -/
def dotSuite : String := r"a.b"

def dotFile : String := "void test_axb__one(void) \x7b\n\x7d\n"

/-- C5 counterexample: the claim states scan_tests treats the suite name
literally, matching only definitions whose embedded suite-name segment
equals it character for character.  The suite name is interpolated into
TEST_FUNC_REGEX without escaping, so for suite a.b the scan matches
test_axb__one, whose embedded segment axb differs from a.b. -/
theorem C5_counterexample :
    findTests dotSuite dotFile =
      [(r"void test_axb__one(void)", r"test_axb__one", r"one")]
    ∧ (r"test_axb__one" : String) ≠ "test_" ++ dotSuite ++ "__" ++ r"one" := by
  decide

/-- Helper: within the model, a dot-free pattern matches literally -
matchPat succeeds precisely on the texts that start with the pattern
itself, consuming exactly it. -/
theorem matchPat_dot_free_literal :
    ∀ (pat : List Char), (∀ c ∈ pat, c ≠ '.') →
    ∀ (text seg rest : List Char),
      (matchPat pat text = some (seg, rest) ↔
        seg = pat ∧ text = pat ++ rest) := by
  intro pat
  induction pat with
  | nil =>
    intro _ text seg rest
    simp only [matchPat, Option.some.injEq, Prod.mk.injEq, List.nil_append]
    constructor
    · rintro ⟨h1, h2⟩; exact ⟨h1.symm, h2⟩
    · rintro ⟨h1, h2⟩; exact ⟨h1.symm, h2⟩
  | cons p ps ih =>
    intro hno text seg rest
    have hp : ¬ p = '.' := hno p (List.mem_cons_self p ps)
    have hno' : ∀ c ∈ ps, c ≠ '.' :=
      fun c hc => hno c (List.mem_cons_of_mem p hc)
    cases text with
    | nil =>
      simp [matchPat]
    | cons c cs =>
      simp only [matchPat, if_neg hp]
      by_cases hpc : p = c
      · subst hpc
        rw [if_pos rfl]
        constructor
        · intro h
          cases hm : matchPat ps cs with
          | none => rw [hm] at h; exact absurd h (by simp)
          | some r =>
            rw [hm] at h
            simp only [Option.map_some', Option.some.injEq, Prod.mk.injEq] at h
            have hm2 : matchPat ps cs = some (r.1, r.2) := by rw [hm]
            have hr := (ih hno' cs r.1 r.2).mp hm2
            have h1 : p :: r.1 = seg := h.1
            have h2 : r.2 = rest := h.2
            subst h1
            subst h2
            refine ⟨?_, ?_⟩
            · rw [hr.1]
            · rw [List.cons_append, hr.2]
        · rintro ⟨h1, h2⟩
          have hcs : cs = ps ++ rest := by
            rw [List.cons_append] at h2
            injection h2
          have hrec := (ih hno' cs ps rest).mpr ⟨rfl, hcs⟩
          rw [hrec]
          simp only [Option.map_some', Option.some.injEq, Prod.mk.injEq]
          exact ⟨h1.symm, trivial⟩
      · simp only [if_neg hpc]
        constructor
        · intro h; exact absurd h (by simp)
        · rintro ⟨h1, h2⟩
          rw [List.cons_append] at h2
          injection h2 with hh _
          exact absurd hh.symm hpc

/-- C5 amended: the suite name is interpolated into the pattern without
escaping, so regex metacharacters in it act as pattern syntax (the
counterexample shows a dot matching an arbitrary character).  The literal
guarantee holds only for suite names built solely from word characters
(letters, digits, underscore): these are exactly the characters that a
compiled Python pattern treats as literals and on which matchPat is an
exact model of re.compile(TEST_FUNC_REGEX % suite_name), and for such
names the scan matches precisely the definitions whose embedded
suite-name segment equals the suite name character for character. -/
theorem C5_amended_literal_word_chars :
    ∀ (pat : List Char), (∀ c ∈ pat, isWordChar c = true) →
    ∀ (text seg rest : List Char),
      (matchPat pat text = some (seg, rest) ↔
        seg = pat ∧ text = pat ++ rest) := by
  intro pat hw
  refine matchPat_dot_free_literal pat (fun c hc => ?_)
  intro heq
  have hwc := hw c hc
  rw [heq] at hwc
  exact absurd hwc (by decide)

/-- Witness for the amended C5: the all-word-character pattern ab matches
the text abc literally, consuming exactly ab. -/
theorem C5_amended_word_chars_witness :
    matchPat ['a', 'b'] ['a', 'b', 'c'] = some (['a', 'b'], ['c']) ↔
      (['a', 'b'] : List Char) = ['a', 'b'] ∧
        (['a', 'b', 'c'] : List Char) = ['a', 'b'] ++ ['c'] :=
  C5_amended_literal_word_chars ['a', 'b'] (by decide)
    ['a', 'b', 'c'] ['a', 'b'] ['c']

theorem renderSuitesFrom_length (st : BuilderState) :
    ∀ (names : List String) (i : Nat),
      (renderSuitesFrom st i names).length = names.length := by
  intro names
  induction names with
  | nil => intro i; rfl
  | cons s names ih =>
    intro i
    simp only [renderSuitesFrom, List.length_cons, ih (i + 1)]

theorem renderSuitesFrom_getD (st : BuilderState) :
    ∀ (names : List String) (i j : Nat), j < names.length →
      (renderSuitesFrom st i names).getD j "" =
        (match dictGet? st.suite_data (names.getD j "") with
         | some su => render_suite su (i + j)
         | none => "") := by
  intro names
  induction names with
  | nil => intro i j h; exact absurd h (by simp)
  | cons s names ih =>
    intro i j h
    cases j with
    | zero =>
      simp [renderSuitesFrom]
    | succ j =>
      have hj : j < names.length := by simpa using h
      simp only [renderSuitesFrom, List.getD_cons_succ]
      rw [ih (i + 1) j hj, show i + 1 + j = i + (j + 1) from by omega]

theorem renderSuitesFrom_congr (st st' : BuilderState)
    (h : ∀ s, dictGet? st.suite_data s = dictGet? st'.suite_data s) :
    ∀ (names : List String) (i : Nat),
      renderSuitesFrom st i names = renderSuitesFrom st' i names := by
  intro names
  induction names with
  | nil => intro i; rfl
  | cons s names ih =>
    intro i
    simp only [renderSuitesFrom]
    rw [h s, ih (i + 1)]

/-- C8: the rendered suite-descriptor list enumerates the suite names in
sorted (code point lexicographic) order; the descriptor in position j is
rendered from the suite looked up under the j-th sorted name with index
exactly j (indices 0..N-1); and the list is independent of discovery
order: two states whose suite_names are permutations of each other with
identical suite lookups render identical descriptor lists. -/
theorem C8_suites_sorted_indexed (st : BuilderState) :
    List.Sorted strLEP (mainSuiteNames st)
    ∧ (render_main st).clar_suites.length = (mainSuiteNames st).length
    ∧ (∀ j, j < (mainSuiteNames st).length →
        (render_main st).clar_suites.getD j "" =
          (match dictGet? st.suite_data ((mainSuiteNames st).getD j "") with
           | some su => render_suite su j
           | none => ""))
    ∧ (∀ st' : BuilderState, st.suite_names.Perm st'.suite_names →
        (∀ s, dictGet? st.suite_data s = dictGet? st'.suite_data s) →
        (render_main st).clar_suites = (render_main st').clar_suites) := by
  refine ⟨List.sorted_insertionSort strLEP st.suite_names, ?_, ?_, ?_⟩
  · exact renderSuitesFrom_length st (mainSuiteNames st) 0
  · intro j hj
    have := renderSuitesFrom_getD st (mainSuiteNames st) 0 j hj
    simpa using this
  · intro st' hperm hlook
    have hnames : mainSuiteNames st = mainSuiteNames st' := by
      refine List.eq_of_perm_of_sorted ?_
        (List.sorted_insertionSort strLEP st.suite_names)
        (List.sorted_insertionSort strLEP st'.suite_names)
      exact ((List.perm_insertionSort strLEP st.suite_names).trans hperm).trans
        (List.perm_insertionSort strLEP st'.suite_names).symm
    show renderSuitesFrom st 0 (mainSuiteNames st) =
      renderSuitesFrom st' 0 (mainSuiteNames st')
    rw [hnames, renderSuitesFrom_congr st st' hlook]

/-- Two states with the same suites discovered in opposite orders. -/
def stDiscA : BuilderState :=
  ⟨[], [r"b", r"a"], [],
    [(r"a", ⟨r"a", none, none, none, 1⟩), (r"b", ⟨r"b", none, none, none, 1⟩)],
    []⟩

def stDiscB : BuilderState :=
  ⟨[], [r"a", r"b"], [], stDiscA.suite_data, []⟩

/-- Witness for C8: permuting the discovery order of the suites b, a does
not change the rendered descriptor list. -/
theorem C8_suites_sorted_indexed_witness :
    (render_main stDiscA).clar_suites = (render_main stDiscB).clar_suites :=
  (C8_suites_sorted_indexed stDiscA).2.2.2 stDiscB (by decide) (fun _ => rfl)

/-- The callback record built from a findall tuple in _process_declarations. -/
def toCallback (t : String × String × String) : Callback :=
  ⟨t.2.2, t.1, t.2.1⟩

/-- The tuples that reach the else branch of the classification chain and
are appended to the ordinary callback list: everything whose short name is
neither initialize nor cleanup (categorize falls through, see C1). -/
def ordinaryPred (t : String × String × String) : Bool :=
  !((t.2.2 == "initialize") || (t.2.2 == "cleanup"))

theorem classifyStep_callbacks (acc : ClassifyAcc)
    (t : String × String × String) :
    (classifyStep acc t).callbacks =
      if ordinaryPred t then acc.callbacks ++ [toCallback t]
      else acc.callbacks := by
  unfold classifyStep ordinaryPred toCallback
  by_cases h1 : t.2.2 = "initialize"
  · simp [h1]
  · by_cases h2 : t.2.2 = "cleanup"
    · simp [h1, h2]
    · by_cases h0 : t.2.2 = "categorize"
      · simp [h0, h1, h2]
      · simp [h0, h1, h2]

theorem classifyAll_callbacks_aux :
    ∀ (l : List (String × String × String)) (acc : ClassifyAcc),
      (l.foldl classifyStep acc).callbacks =
        acc.callbacks ++ (l.filter ordinaryPred).map toCallback := by
  intro l
  induction l with
  | nil => intro acc; simp
  | cons t l ih =>
    intro acc
    rw [List.foldl_cons, ih (classifyStep acc t), classifyStep_callbacks]
    by_cases hp : ordinaryPred t
    · rw [if_pos hp, List.filter_cons_of_pos hp]
      simp
    · rw [if_neg hp, List.filter_cons_of_neg (by simpa using hp)]

/-- The ordinary callback list produced by the classification loop is the
ordinary-tuple sublist, in scan order, converted to records. -/
theorem classifyAll_callbacks (l : List (String × String × String)) :
    (classifyAll l).callbacks = (l.filter ordinaryPred).map toCallback := by
  have := classifyAll_callbacks_aux l ⟨none, none, none, []⟩
  simpa [classifyAll] using this

/-- The short names of a callback list. -/
def cbKeys (l : List Callback) : List String :=
  l.map (fun cb => cb.short_name)

/-- Sorting callbacks by short name then projecting to the short names is
projecting and sorting the names. -/
theorem cbKeys_insertionSort (l : List Callback) :
    cbKeys (List.insertionSort cbLEP l) =
      List.insertionSort strLEP (cbKeys l) := by
  refine List.eq_of_perm_of_sorted ?_ ?_ (List.sorted_insertionSort strLEP _)
  · exact ((List.perm_insertionSort cbLEP l).map _).trans
      (List.perm_insertionSort strLEP (cbKeys l)).symm
  · exact List.Pairwise.map _ (fun a b h => h)
      (List.sorted_insertionSort cbLEP l)

/-- The string rendered by _render_cb for a test whose symbol has the
standard shape for suite sname. -/
def renderOf (sname s : String) : String :=
  "\x7b\"" ++ s ++ "\", &" ++ ("test_" ++ sname ++ "__" ++ s) ++ "\x7d"

/-- When every symbol has the standard shape, the rendered entry list is
determined by the short names alone. -/
theorem renderEntries_by_keys (sname : String) :
    ∀ (cbs : List Callback),
      (∀ cb ∈ cbs, cb.symbol = "test_" ++ sname ++ "__" ++ cb.short_name) →
      renderCallbackEntries cbs =
        ((cbKeys cbs).filter (fun s => !(reservedName s))).map
          (renderOf sname) := by
  intro cbs
  induction cbs with
  | nil => intro _; rfl
  | cons cb cbs ih =>
    intro hsym
    have hcb := hsym cb (List.mem_cons_self cb cbs)
    have hrest : ∀ c ∈ cbs, c.symbol = "test_" ++ sname ++ "__" ++ c.short_name :=
      fun c hc => hsym c (List.mem_cons_of_mem cb hc)
    have hr := ih hrest
    unfold renderCallbackEntries cbKeys at hr ⊢
    simp only [List.map_cons, List.filter_cons]
    by_cases hres : reservedName cb.short_name
    · simp only [hres, Bool.not_true]
      rw [if_neg (by simp), if_neg (by simp)]
      exact hr
    · have hres2 : reservedName cb.short_name = false := by
        simpa using hres
      simp only [hres2, Bool.not_false, if_true]
      rw [List.map_cons, List.map_cons, hr]
      congr 1
      unfold render_cb renderOf
      rw [hcb]

/-- Every stored callback of a scan whose symbols have the standard shape
also has the standard shape. -/
theorem storedCallbacks_sym (sname : String)
    (scanned : List (String × String × String))
    (hsym : ∀ t ∈ scanned, t.2.1 = "test_" ++ sname ++ "__" ++ t.2.2) :
    ∀ cb ∈ storedCallbacks scanned,
      cb.symbol = "test_" ++ sname ++ "__" ++ cb.short_name := by
  intro cb hcb
  have hmem : cb ∈ (classifyAll scanned).callbacks :=
    (List.perm_insertionSort cbLEP _).subset hcb
  rw [classifyAll_callbacks] at hmem
  rcases List.mem_map.mp hmem with ⟨t, ht, rfl⟩
  have := hsym t (List.mem_of_mem_filter ht)
  exact this

/-- C9: for every scan result whose symbols have the standard
test_<suite>__<short> shape (which the test pattern guarantees for
metacharacter-free suite names), the stored per-suite callback list is
sorted by short name even after filtering out the reserved names, so the
rendered array entries appear in sorted order; and any permutation of the
scanned definitions - any reordering of the definitions within the file -
renders the identical entry list. -/
theorem C9_callbacks_sorted_order_independent
    (sname : String) (scanned scanned' : List (String × String × String))
    (hsym : ∀ t ∈ scanned, t.2.1 = "test_" ++ sname ++ "__" ++ t.2.2)
    (hperm : scanned.Perm scanned') :
    List.Sorted cbLEP ((storedCallbacks scanned).filter
        (fun cb => !(reservedName cb.short_name)))
    ∧ renderCallbackEntries (storedCallbacks scanned')
        = renderCallbackEntries (storedCallbacks scanned) := by
  constructor
  · exact List.Pairwise.sublist (List.filter_sublist _)
      (List.sorted_insertionSort cbLEP _)
  · have hsym' : ∀ t ∈ scanned', t.2.1 = "test_" ++ sname ++ "__" ++ t.2.2 :=
      fun t ht => hsym t (hperm.symm.subset ht)
    have hkeys : cbKeys (storedCallbacks scanned')
        = cbKeys (storedCallbacks scanned) := by
      unfold storedCallbacks
      rw [cbKeys_insertionSort, cbKeys_insertionSort]
      refine List.eq_of_perm_of_sorted ?_
        (List.sorted_insertionSort strLEP _)
        (List.sorted_insertionSort strLEP _)
      refine ((List.perm_insertionSort strLEP _).trans ?_).trans
        (List.perm_insertionSort strLEP _).symm
      rw [classifyAll_callbacks, classifyAll_callbacks]
      unfold cbKeys
      exact ((hperm.symm.filter ordinaryPred).map toCallback).map _
    rw [renderEntries_by_keys sname _ (storedCallbacks_sym sname scanned' hsym'),
      renderEntries_by_keys sname _ (storedCallbacks_sym sname scanned hsym),
      hkeys]

/-- Two scans of the same file with the definitions b, a in opposite
orders. -/
def scanFwd : List (String × String × String) :=
  [(r"void test_s__b(void)", r"test_s__b", r"b"),
   (r"void test_s__a(void)", r"test_s__a", r"a")]

def scanRev : List (String × String × String) :=
  [(r"void test_s__a(void)", r"test_s__a", r"a"),
   (r"void test_s__b(void)", r"test_s__b", r"b")]

/-- Witness for C9: the stored order is sorted and permuting the source
definitions renders the same entry list. -/
theorem C9_callbacks_sorted_witness :
    List.Sorted cbLEP ((storedCallbacks scanFwd).filter
        (fun cb => !(reservedName cb.short_name)))
    ∧ renderCallbackEntries (storedCallbacks scanRev)
        = renderCallbackEntries (storedCallbacks scanFwd) :=
  C9_callbacks_sorted_order_independent suiteS scanFwd scanRev
    (by decide) (by decide)

theorem skipAux_plain (f : Nat) (c : Char) (rest : List Char)
    (h1 : ¬ c = '/') (h2 : ¬ c = '\'') (h3 : ¬ c = '"') :
    skipAux (f + 1) (c :: rest) = c :: skipAux f rest := by
  simp [skipAux, h1, h2, h3]

theorem skip_plain_char (c : Char) (rest : List Char)
    (h1 : c ≠ '/') (h2 : c ≠ '\'') (h3 : c ≠ '"') :
    skipList (c :: rest) = c :: skipList rest := by
  unfold skipList
  rw [List.length_cons]
  exact skipAux_plain rest.length c rest h1 h2 h3

theorem skipAux_line (f : Nat) (r2 : List Char) :
    skipAux (f + 2) ('/' :: '/' :: r2) =
      skipAux (f + 1) (r2.dropWhile (fun x => !(x == '\n'))) := by
  rfl

theorem skipAux_block (f : Nat) (r2 : List Char) :
    skipAux (f + 2) ('/' :: '*' :: r2) =
      (match splitBlock r2 with
       | some p => skipAux (f + 1) p.2
       | none => '/' :: skipAux (f + 1) ('*' :: r2)) := by
  rfl

theorem skipAux_dquote (f : Nat) (rest : List Char) :
    skipAux (f + 1) ('"' :: rest) =
      (match splitLit '"' rest with
       | some p => '"' :: (p.1 ++ skipAux f p.2)
       | none => '"' :: skipAux f rest) := by
  rfl

theorem skipAux_squote (f : Nat) (rest : List Char) :
    skipAux (f + 1) ('\'' :: rest) =
      (match splitLit '\'' rest with
       | some p => '\'' :: (p.1 ++ skipAux f p.2)
       | none => '\'' :: skipAux f rest) := by
  rfl

theorem skip_line_comment (s rest : List Char) (hs : ∀ c ∈ s, c ≠ '\n') :
    skipList (('/' :: '/' :: s) ++ '\n' :: rest) = '\n' :: skipList rest := by
  unfold skipList
  rw [List.cons_append, List.cons_append, List.length_cons, List.length_cons]
  rw [skipAux_line, dropWhile_append_newline s rest hs]
  rw [skipAux_fuel ((s ++ '\n' :: rest).length + 1) ('\n' :: rest).length
    ('\n' :: rest) (by simp; omega) (Nat.le_refl _)]
  rw [List.length_cons]
  exact skipAux_plain rest.length '\n' rest (by decide) (by decide) (by decide)

theorem skip_block_comment (s rest : List Char) (hs : hasStarSlash s = false) :
    skipList (('/' :: '*' :: s) ++ '*' :: '/' :: rest) = skipList rest := by
  unfold skipList
  rw [List.cons_append, List.cons_append, List.length_cons, List.length_cons]
  rw [skipAux_block]
  simp only [splitBlock_append s rest hs]
  exact skipAux_fuel ((s ++ '*' :: '/' :: rest).length + 1) rest.length rest
    (by simp; omega) (Nat.le_refl _)

theorem skip_str_lit (s rest : List Char) (hs : litBody '"' s = true) :
    skipList (('"' :: s) ++ '"' :: rest) = ('"' :: s) ++ '"' :: skipList rest := by
  unfold skipList
  rw [List.cons_append, List.length_cons]
  rw [skipAux_dquote]
  simp only [splitLit_append s.length s (Nat.le_refl _) '"' rest
    (by decide) hs]
  rw [skipAux_fuel (s ++ '"' :: rest).length rest.length rest
    (by simp; omega) (Nat.le_refl _)]
  simp [List.append_assoc]

theorem skip_char_lit (s rest : List Char) (hs : litBody '\'' s = true) :
    skipList (('\'' :: s) ++ '\'' :: rest) =
      ('\'' :: s) ++ '\'' :: skipList rest := by
  unfold skipList
  rw [List.cons_append, List.length_cons]
  rw [skipAux_squote]
  simp only [splitLit_append s.length s (Nat.le_refl _) '\'' rest
    (by decide) hs]
  rw [skipAux_fuel (s ++ '\'' :: rest).length rest.length rest
    (by simp; omega) (Nat.le_refl _)]
  simp [List.append_assoc]

/-- C2 amended: the normalizer replaces line comment spans (keeping the
terminating newline) and block comment spans (consuming their closer) by
the empty string, preserves character-literal and string-literal spans
exactly as written, and copies every character that does not open a
comment or literal. -/
theorem C2_amended_spans :
    (∀ (s rest : List Char), (∀ c ∈ s, c ≠ '\n') →
      skipList (('/' :: '/' :: s) ++ '\n' :: rest) = '\n' :: skipList rest)
    ∧ (∀ (s rest : List Char), hasStarSlash s = false →
      skipList (('/' :: '*' :: s) ++ '*' :: '/' :: rest) = skipList rest)
    ∧ (∀ (s rest : List Char), litBody '"' s = true →
      skipList (('"' :: s) ++ '"' :: rest) =
        ('"' :: s) ++ '"' :: skipList rest)
    ∧ (∀ (s rest : List Char), litBody '\'' s = true →
      skipList (('\'' :: s) ++ '\'' :: rest) =
        ('\'' :: s) ++ '\'' :: skipList rest)
    ∧ (∀ (c : Char) (rest : List Char), c ≠ '/' → c ≠ '\'' → c ≠ '"' →
      skipList (c :: rest) = c :: skipList rest) :=
  ⟨skip_line_comment, skip_block_comment, skip_str_lit, skip_char_lit,
    skip_plain_char⟩

/-- Witness for the amended C2: a line comment over the letter a is
blanked keeping its newline, and the string literal over the letter a is
preserved, on concrete one-character tails. -/
theorem C2_amended_spans_witness :
    skipList (('/' :: '/' :: ['a']) ++ '\n' :: ['b']) = '\n' :: skipList ['b']
    ∧ skipList (('"' :: ['a']) ++ '"' :: ['b']) =
        ('"' :: ['a']) ++ '"' :: skipList ['b'] :=
  ⟨C2_amended_spans.1 ['a'] ['b'] (by decide),
    C2_amended_spans.2.2.1 ['a'] ['b'] (by decide)⟩
